import Mathlib

/-!
Verification of the `clinvoice_finance` (money2) crate against its
natural-language specification.

Shallow embedding conventions:

* Strings are handled as `String` at the API boundary and as `List Char`
  internally (`String.data`); Rust's `str::split` and `str::lines` are
  embedded by the executable functions `splitChar` and `rustLines` below.
* `rust_decimal::Decimal` values are modelled by their exact rational value
  (`ℚ`).  The 96-bit mantissa and 28-digit precision limits of the library
  are not modelled; every statement below only exercises arithmetic that is
  exact in `rust_decimal` as well.  `Decimal::rescale(2)` reduces the scale
  digit by digit and rounds the magnitude up when the last removed digit is
  at least 5, i.e. round-half-away-from-zero; it is embedded by `rescale2`.
  Operations that panic in Rust (`Div` by zero, `rescale` never panics) are
  embedded with an explicit outcome (`GetOutcome.panicked`, `Option`).
* `HashMap<Currency, Decimal>` (`ExchangeRates`) is modelled extensionally
  as `Currency → Option ℚ`; `HashMap::insert` overwrites the key.
* `BTreeMap<NaiveDate, ExchangeRates>` is modelled as an association list in
  ascending key order; `range(..=d).next_back()` / `range(d..).next()` become
  `filter`/`getLast?` and `filter`/`head?` on that list.
* `chrono::NaiveDate` keys are represented by the order-preserving encoding
  `year * 10000 + month * 100 + day` (months and days are below 100, so the
  encoding is strictly monotone in the calendar order).  For the cache
  staleness check, which subtracts dates as day counts, dates are instead
  abstract day numbers (`ℤ`), so `NaiveDate::signed_duration_since` measured
  in days is integer subtraction.
-/

/-- Rust's `str::split(sep)` on a list of characters: splitting the empty
string yields one empty piece, and every separator starts a new piece. -/
def splitChar (sep : Char) : List Char → List (List Char)
  | [] => [[]]
  | c :: rest =>
    if c = sep then [] :: splitChar sep rest
    else
      match splitChar sep rest with
      | [] => [[c]]
      | h :: t => (c :: h) :: t

/-- Rust's `str::lines`: split at `'\n'` and drop a final empty piece (a
trailing line terminator does not produce an extra line).  `"\r\n"` line
endings are not modelled; no input in this development contains `'\r'`. -/
def rustLines (cs : List Char) : List (List Char) :=
  let parts := splitChar '\n' cs
  if parts.getLast? = some [] then parts.dropLast else parts

/-- The numeric value of an ASCII digit character. -/
def charToDigit (c : Char) : ℕ := c.toNat - 48

/-- Parse a non-empty all-digit character list as a natural number
(most-significant digit first). -/
def parseNatChars (cs : List Char) : Option ℕ :=
  if cs = [] then none
  else if cs.all Char.isDigit then some (cs.foldl (fun a c => 10 * a + charToDigit c) 0)
  else none

/-- `rust_decimal`'s `FromStr` on an unsigned body: integer digits, optionally
followed by `'.'` and fraction digits.  (Exotic corners of the Rust parser —
embedded underscores, a leading or trailing bare `'.'`, digit counts beyond
the 28-digit precision — are outside the fragment exercised here.) -/
def parseUnsignedDec (cs : List Char) : Option ℚ :=
  let intC := cs.takeWhile (fun c => c != '.')
  match cs.dropWhile (fun c => c != '.') with
  | [] => (parseNatChars intC).map (fun n => (n : ℚ))
  | _ :: frac =>
    match parseNatChars intC, parseNatChars frac with
    | some n, some f => some ((n : ℚ) + (f : ℚ) / 10 ^ frac.length)
    | _, _ => none

/-- `rust_decimal::Decimal::from_str`, as used for CSV rate cells and money
amounts: an optional sign followed by a decimal literal. -/
def parseDecimal (cs : List Char) : Option ℚ :=
  match cs with
  | [] => parseUnsignedDec []
  | c :: rest =>
    if c = '-' then (parseUnsignedDec rest).map (fun q => -q)
    else if c = '+' then parseUnsignedDec rest
    else parseUnsignedDec (c :: rest)

/-- Gregorian leap-year rule (as used by `chrono`). -/
def leapYear (y : ℕ) : Bool := y % 4 == 0 && (!(y % 100 == 0) || y % 400 == 0)

/-- Days in a month of the proleptic Gregorian calendar. -/
def daysInMonth (y m : ℕ) : ℕ :=
  if m = 2 then (if leapYear y then 29 else 28)
  else if m = 4 ∨ m = 6 ∨ m = 9 ∨ m = 11 then 30
  else 31

/-- `chrono::NaiveDate`'s `FromStr` (`%Y-%m-%d` with calendar validation),
returning the order-preserving encoding `y * 10000 + m * 100 + d`. -/
def parseNaiveDate (cs : List Char) : Option ℕ :=
  match splitChar '-' cs with
  | [ys, ms, ds] =>
    match parseNatChars ys, parseNatChars ms, parseNatChars ds with
    | some y, some mo, some d =>
      if 1 ≤ mo ∧ mo ≤ 12 ∧ 1 ≤ d ∧ d ≤ daysInMonth y mo then
        some (y * 10000 + mo * 100 + d)
      else none
    | _, _, _ => none
  | _ => none

/-- `chrono::NaiveDate::default()`, i.e. 1970-01-01, in the key encoding. -/
def defaultDate : ℕ := 19700101

/-- The crate's `Error` type (the variants reachable from the embedded
functions; transport errors are out of scope). -/
inductive Error where
  | Decode (context : String) (reason : String)
  | UnsupportedCurrency (s : String)
  | DecimalErr
deriving DecidableEq

/-- `Error::csv_row_missing` from `src/error.rs`. -/
def Error.csv_row_missing (row : String) : Error :=
  .Decode "the exchange rates CSV from the ECB" ("there was no " ++ row ++ " row")

/-- The closed `Currency` enumeration from `src/currency.rs`, in declaration
order. -/
inductive Currency where
  | Aud | Bgn | Brl | Cad | Chf | Cny | Czk | Dkk | Eur | Gbp | Hkd | Huf
  | Idr | Ils | Inr | Isk | Jpy | Krw | Mxn | Myr | Nok | Nzd | Php | Pln
  | Ron | Rub | Sek | Sgd | Thb | Try | Usd | Zar
deriving DecidableEq

/-- The canonical uppercase code of a `Currency` (strum's
`serialize_all = "UPPERCASE"` static string, also the `Display` form).
Modelled from the spec: `canonical_string(code)` is the "stable uppercase
3-letter form" (§4.1); `src/currency/display.rs` is not present under
`src/`, only the strum attributes that generate the string. -/
def Currency.strumStr : Currency → String
  | .Aud => "AUD" | .Bgn => "BGN" | .Brl => "BRL" | .Cad => "CAD"
  | .Chf => "CHF" | .Cny => "CNY" | .Czk => "CZK" | .Dkk => "DKK"
  | .Eur => "EUR" | .Gbp => "GBP" | .Hkd => "HKD" | .Huf => "HUF"
  | .Idr => "IDR" | .Ils => "ILS" | .Inr => "INR" | .Isk => "ISK"
  | .Jpy => "JPY" | .Krw => "KRW" | .Mxn => "MXN" | .Myr => "MYR"
  | .Nok => "NOK" | .Nzd => "NZD" | .Php => "PHP" | .Pln => "PLN"
  | .Ron => "RON" | .Rub => "RUB" | .Sek => "SEK" | .Sgd => "SGD"
  | .Thb => "THB" | .Try => "TRY" | .Usd => "USD" | .Zar => "ZAR"

/-- All currencies, in declaration order (strum's `EnumIter`). -/
def Currency.allCases : List Currency :=
  [.Aud, .Bgn, .Brl, .Cad, .Chf, .Cny, .Czk, .Dkk, .Eur, .Gbp, .Hkd, .Huf,
   .Idr, .Ils, .Inr, .Isk, .Jpy, .Krw, .Mxn, .Myr, .Nok, .Nzd, .Php, .Pln,
   .Ron, .Rub, .Sek, .Sgd, .Thb, .Try, .Usd, .Zar]

/-- `Currency::reverse_lookup`: case-insensitive exact match against the
canonical code set (the `UniCase` keyed map; case folding is modelled by
ASCII upper-casing, which agrees with `UniCase` on the ASCII code set). -/
def Currency.reverse_lookup (s : List Char) : Option Currency :=
  Currency.allCases.find? (fun c => (Currency.strumStr c).data == s.map Char.toUpper)

/-- `ExchangeRates` (`HashMap<Currency, Decimal>`), modelled extensionally. -/
abbrev ExchangeRates := Currency → Option ℚ

/-- `HashMap::new()`. -/
def ExchangeRates.empty : ExchangeRates := fun _ => none

/-- `HashMap::insert` (overwrites the key). -/
def ExchangeRates.insert (rates : ExchangeRates) (c : Currency) (d : ℚ) : ExchangeRates :=
  fun x => if x = c then some d else rates x

/-- The three observable outcomes of `ExchangeRates::get`: either currency
missing (`None` in Rust), a found cross-rate, or the panic of
`rust_decimal`'s `Div` when the `current` rate is zero. -/
inductive GetOutcome where
  | panicked
  | absent
  | found (rate : ℚ)
deriving DecidableEq

/-- `ExchangeRates::get` (`src/exchange_rates.rs` lines 155-158):
`self.0.get(current).and_then(|c| self.0.get(desired).map(|d| d / c))`,
with the division-by-zero panic made explicit. -/
def ExchangeRates.get (rates : ExchangeRates) (current desired : Currency) : GetOutcome :=
  match rates current with
  | none => .absent
  | some c =>
    match rates desired with
    | none => .absent
    | some d => if c = 0 then .panicked else .found (d / c)

/-- `rust_decimal`'s `rescale` rounding of a magnitude: the last removed
digit decides, `≥ 5` rounds the magnitude up — i.e. round half away from
zero. -/
def roundHalfAway (x : ℚ) : ℤ :=
  if 0 ≤ x then ⌊x + 1 / 2⌋ else -⌊-x + 1 / 2⌋

/-- `Decimal::rescale(2)` on the exact value: round to 2 decimal places,
half away from zero. -/
def rescale2 (q : ℚ) : ℚ := (roundHalfAway (q * 100) : ℚ) / 100

/-- Round half to even, as the spec's words prescribe for the conversion
("the reference rescales via its decimal library's default, which is
round-half-to-even").  Defined from the spec only, to be compared against
the source's `rescale2`. -/
def roundHalfEven (x : ℚ) : ℤ :=
  if x - ⌊x⌋ < 1 / 2 then ⌊x⌋
  else if 1 / 2 < x - ⌊x⌋ then ⌊x⌋ + 1
  else if 2 ∣ ⌊x⌋ then ⌊x⌋ else ⌊x⌋ + 1

/-- Rescaling to 2 places with the spec's round-half-to-even. -/
def rescale2HalfEven (q : ℚ) : ℚ := (roundHalfEven (q * 100) : ℚ) / 100

/-- `Money` (`src/money.rs`): an amount of a `Currency`.  The amount is the
exact rational value of the `Decimal`. -/
structure Money where
  amount : ℚ
  currency : Currency
deriving DecidableEq

/-- `Money::new(amount, decimal_places, currency)`: builds
`Decimal::new(amount, decimal_places)`, which panics (here `none`) when
`decimal_places > 28`. -/
def Money.new (amount : ℤ) (decimal_places : ℕ) (currency : Currency) : Option Money :=
  if decimal_places ≤ 28 then
    some { amount := (amount : ℚ) / 10 ^ decimal_places, currency := currency }
  else none

/-- `<Money as Exchange>::exchange_mut` (`src/money/exchange.rs` lines
11-24), as the derived by-value `exchange`: no-op on equal currencies,
otherwise multiply by `rates.index(&self.currency..&currency)` and rescale
to 2 places.  `index`'s panic on a missing currency and the division panic
on a zero rate are embedded as `none`. -/
def Money.exchange (v : Money) (currency : Currency) (rates : ExchangeRates) : Option Money :=
  if v.currency = currency then some v
  else
    match rates.get v.currency currency with
    | .found r => some { amount := rescale2 (v.amount * r), currency := currency }
    | _ => none

/-- `HistoricalExchangeMap` (`BTreeMap<NaiveDate, ExchangeRates>`): an
association list in strictly ascending key order. -/
abbrev HistoricalExchangeMap := List (ℕ × ExchangeRates)

/-- `BTreeMap::insert`: ordered insert, overwriting an equal key. -/
def HistoricalExchangeMap.insert (k : ℕ) (v : ExchangeRates) :
    HistoricalExchangeMap → HistoricalExchangeMap
  | [] => [(k, v)]
  | (k', v') :: t =>
    if k < k' then (k, v) :: (k', v') :: t
    else if k = k' then (k, v) :: t
    else (k', v') :: HistoricalExchangeMap.insert k v t

/-- One step of the per-row fold in `parse_csv`: a resolved header whose
cell parses as a decimal inserts that rate; anything else leaves the
accumulated rates unchanged. -/
def HistoricalExchangeRates.rowStep (rates : ExchangeRates)
    (hv : Option Currency × List Char) : ExchangeRates :=
  match hv.1 with
  | some c =>
    match parseDecimal hv.2 with
    | some d => rates.insert c d
    | none => rates
  | none => rates

/-- The inner fold of `parse_csv` over `headers.iter().zip(values)`. -/
def HistoricalExchangeRates.rowRates (l : List (Option Currency × List Char)) : ExchangeRates :=
  l.foldl HistoricalExchangeRates.rowStep ExchangeRates.empty

/-- The date of a data row:
`values.next().and_then(|d| d.parse::<NaiveDate>().ok()).unwrap_or_default()`. -/
def HistoricalExchangeRates.rowDate (cells : List (List Char)) : ℕ :=
  ((cells.head?).bind parseNaiveDate).getD defaultDate

/-- Folding one data row of the CSV into the map (the body of the outer
fold of `parse_csv`): parse the date, fold the remaining cells into an
`ExchangeRates`, force `EUR ↦ 1`, and insert at the date. -/
def HistoricalExchangeRates.insertRow (headers : List (Option Currency))
    (m : HistoricalExchangeMap) (line : List Char) : HistoricalExchangeMap :=
  let cells := splitChar ',' line
  let rates := HistoricalExchangeRates.rowRates (headers.zip (cells.drop 1))
  HistoricalExchangeMap.insert (HistoricalExchangeRates.rowDate cells)
    (rates.insert .Eur 1) m

/-- `HistoricalExchangeRates::parse_csv` (`src/historical_exchange_rates.rs`
lines 271-304). -/
def HistoricalExchangeRates.parse_csv (csv : String) : Except Error HistoricalExchangeMap :=
  match rustLines csv.data with
  | [] => .error (Error.csv_row_missing "headers")
  | headerLine :: dataLines =>
    let headers := ((splitChar ',' headerLine).drop 1).map Currency.reverse_lookup
    .ok (dataLines.foldl (HistoricalExchangeRates.insertRow headers) [])

/-- The snapshot stored at key `k` of the parsed map, if parsing succeeded
and the key is present (a convenience projection for concrete statements). -/
def HistoricalExchangeRates.snapshotAt (csv : String) (k : ℕ) : Option ExchangeRates :=
  (HistoricalExchangeRates.parse_csv csv).toOption.bind
    (fun m => ((m.filter (fun p => p.1 == k)).head?).map (fun p => p.2))

/-- The rate recorded for currency `c` at key `k` of the parsed map. -/
def HistoricalExchangeRates.snapshotRate (csv : String) (k : ℕ) (c : Currency) : Option ℚ :=
  (HistoricalExchangeRates.snapshotAt csv k).bind (fun rates => rates c)

/-- `history.range(..=naive).next_back()`. -/
def HistoricalExchangeRates.rangeToLast (history : HistoricalExchangeMap) (naive : ℕ) :
    Option (ℕ × ExchangeRates) :=
  (history.filter (fun p => decide (p.1 ≤ naive))).getLast?

/-- `history.range(naive..).next()`. -/
def HistoricalExchangeRates.rangeFromFirst (history : HistoricalExchangeMap) (naive : ℕ) :
    Option (ℕ × ExchangeRates) :=
  (history.filter (fun p => decide (naive ≤ p.1))).head?

/-- `HistoricalExchangeRates::get_ref_from` (`src/historical_exchange_rates.rs`
lines 195-206): resolve the requested date (today when `None`) to the
greatest key `≤` it, else the smallest key `≥` it. -/
def HistoricalExchangeRates.get_ref_from (history : HistoricalExchangeMap)
    (date : Option ℕ) (today : ℕ) : Option ExchangeRates :=
  let naive := date.getD today
  match HistoricalExchangeRates.rangeToLast history naive with
  | some p => some p.2
  | none => (HistoricalExchangeRates.rangeFromFirst history naive).map (fun p => p.2)

/-- The populated cache slot of `HistoricalExchangeRates::cached`: the
shared map plus the `LAST_CHECK` date (an abstract day number). -/
structure CacheState where
  history : HistoricalExchangeMap
  last_check : ℤ

/-- `NaiveDate::signed_duration_since` measured in whole days. -/
def signed_duration_since (a b : ℤ) : ℤ := a - b

/-- The staleness test of `cached` (`src/historical_exchange_rates.rs` lines
44-45): `LAST_CHECK.read().signed_duration_since(now) >= Duration::days(1)`. -/
def HistoricalExchangeRates.refresh_due (last_check now : ℤ) : Bool :=
  decide (1 ≤ signed_duration_since last_check now)

/-- One access to an already-populated cache (`cached`, lines 43-53): when
the staleness test passes, re-fetch (`from_ecb`, counted by the second
component), replace the map wholesale and set `LAST_CHECK` to `now`;
otherwise serve the existing state with no fetch. -/
def HistoricalExchangeRates.cached_access (st : CacheState) (now : ℤ)
    (fetched : HistoricalExchangeMap) : CacheState × ℕ :=
  if HistoricalExchangeRates.refresh_due st.last_check now then
    ({ history := fetched, last_check := now }, 1)
  else (st, 0)

/-- Big-endian decimal digit characters of a natural number (empty for 0). -/
def digitCharsBE (n : ℕ) : List Char :=
  ((Nat.digits 10 n).map Nat.digitChar).reverse

/-- The digits of `n` padded on the left with `'0'` to at least `p + 1`
characters (so that a point can be placed before the last `p` digits). -/
def paddedChars (n p : ℕ) : List Char :=
  List.replicate (p + 1 - (digitCharsBE n).length) '0' ++ digitCharsBE n

/-- `Display` of the magnitude of `Decimal::new(±n, p)`: the padded digits
with a point before the last `p` of them (no point when `p = 0`). -/
def unsignedDecimalChars (n p : ℕ) : List Char :=
  (paddedChars n p).take ((paddedChars n p).length - p) ++
    (if p = 0 then [] else '.' :: (paddedChars n p).drop ((paddedChars n p).length - p))

/-- `Display` of `Decimal::new(m, p)`: sign, then the magnitude's digits
padded on the left to at least `p + 1` digits, with a point before the last
`p` digits (no point when `p = 0`). -/
def decimalChars (m : ℤ) (p : ℕ) : List Char :=
  (if m < 0 then ['-'] else []) ++ unsignedDecimalChars m.natAbs p

/-- `<Money as Display>::fmt` applied to `Money::new(m, p, c)`:
`"{amount} {currency}"`. -/
def Money.display_new (m : ℤ) (p : ℕ) (c : Currency) : String :=
  String.mk (decimalChars m p ++ ' ' :: (Currency.strumStr c).data)

/-- `<Money as FromStr>::from_str` (`src/money/from_str.rs`): split on a
single space, parse the amount as a `Decimal` and the second field as a
`Currency`.  (`split(' ').next()` on the first field never yields `None`,
so the "no amount" error of the source is unreachable; the empty-split case
is mapped to it anyway.) -/
def Money.from_str (s : String) : Except Error Money :=
  match splitChar ' ' s.data with
  | [] => .error (.Decode ("\"" ++ s ++ "\" into money") "there was no amount")
  | amountCs :: rest =>
    match parseDecimal amountCs with
    | none => .error .DecimalErr
    | some amount =>
      match rest.head? with
      | none => .error (.Decode ("\"" ++ s ++ "\" into money") "there was no currency")
      | some currencyCs =>
        match Currency.reverse_lookup currencyCs with
        | none => .error (.UnsupportedCurrency (String.mk currencyCs))
        | some currency => .ok { amount := amount, currency := currency }

/-!  ## Theorems -/

/-- C1: the spec requires that a populated cache accessed at least one
calendar day after its last refresh performs exactly one refresh; the code's
staleness test `last_check.signed_duration_since(now) >= Duration::days(1)`
has the subtraction reversed, so it fires only when the last check lies in
the future, and an access one day after the last refresh performs no fetch
and leaves the cache unchanged. -/
theorem c1_stale_cache_never_refreshes :
    (∀ last_check now : ℤ,
        HistoricalExchangeRates.refresh_due last_check now = decide (now + 1 ≤ last_check))
    ∧ HistoricalExchangeRates.cached_access ⟨[], 0⟩ 1 [(defaultDate, ExchangeRates.empty)] =
        (⟨[], 0⟩, 0) := by
  constructor
  · intro last_check now
    unfold HistoricalExchangeRates.refresh_due signed_duration_since
    rw [decide_eq_decide]
    omega
  · rfl

/-- C6: the spec requires a zero source rate to surface as an error or
absent result, but `ExchangeRates::get` divides by the `current` rate with
`rust_decimal`'s `Div`, which panics on a zero divisor: with the snapshot
`{USD ↦ 0, JPY ↦ 133.81}` the lookup of the USD→JPY cross-rate panics
instead of returning an error or `None`. -/
theorem c6_zero_rate_division_panics :
    ExchangeRates.get ((ExchangeRates.empty.insert .Usd 0).insert .Jpy (13381 / 100))
        .Usd .Jpy = .panicked
    ∧ ExchangeRates.get ((ExchangeRates.empty.insert .Usd 0).insert .Jpy (13381 / 100))
        .Usd .Jpy ≠ .absent := by
  decide

/-- C5: `parse_csv` fails exactly when the input has no first line at all,
and its single failure is the `Decode` error naming the missing `headers`
row; every input with a first line parses to `Ok`, malformed cells and
dates notwithstanding. -/
theorem c5_parse_csv_fails_iff_no_header :
    (∀ csv : String, rustLines csv.data = [] →
        HistoricalExchangeRates.parse_csv csv =
          .error (Error.Decode "the exchange rates CSV from the ECB" "there was no headers row"))
    ∧ (∀ csv : String, rustLines csv.data ≠ [] →
        ∃ m, HistoricalExchangeRates.parse_csv csv = .ok m)
    ∧ HistoricalExchangeRates.parse_csv "" =
        .error (Error.Decode "the exchange rates CSV from the ECB" "there was no headers row")
    ∧ (∃ m, HistoricalExchangeRates.parse_csv "Date,XXX,USD\nnot-a-date,oops,1.5" = .ok m) := by
  refine ⟨?_, ?_, ?_, ?_⟩
  · intro csv h
    unfold HistoricalExchangeRates.parse_csv
    rw [h]
    rfl
  · intro csv h
    unfold HistoricalExchangeRates.parse_csv
    cases hL : rustLines csv.data with
    | nil => exact absurd hL h
    | cons hd tl => exact ⟨_, rfl⟩
  · rfl
  · exact ⟨_, rfl⟩

/-- C5 witness: the empty string has no lines, and parsing it yields the
missing-headers decode error. -/
theorem c5_parse_csv_fails_iff_no_header_witness :
    rustLines ("" : String).data = []
    ∧ HistoricalExchangeRates.parse_csv "" =
        .error (Error.Decode "the exchange rates CSV from the ECB" "there was no headers row") :=
  ⟨rfl, c5_parse_csv_fails_iff_no_header.1 "" rfl⟩

/-- C10: a data row whose first cell does not parse as a date is kept and
filed under `NaiveDate::default()` = 1970-01-01; inserting twice at one key
overwrites, so of several such rows only the last survives — concretely,
parsing two bad-date rows yields a single entry at the sentinel key holding
the later row's rate. -/
theorem c10_unparseable_dates_collapse_to_default :
    (∀ dcell rest, HistoricalExchangeRates.rowDate (dcell :: rest) =
        (parseNaiveDate dcell).getD defaultDate)
    ∧ defaultDate = 19700101
    ∧ (∀ k v v' m, HistoricalExchangeMap.insert k v (HistoricalExchangeMap.insert k v' m) =
        HistoricalExchangeMap.insert k v m)
    ∧ parseNaiveDate ("01 June 2021".data) = none
    ∧ parseNaiveDate ("nope".data) = none
    ∧ (HistoricalExchangeRates.parse_csv "Date,USD\n01 June 2021,2\nnope,3").toOption.map
        List.length = some 1
    ∧ HistoricalExchangeRates.snapshotRate "Date,USD\n01 June 2021,2\nnope,3" 19700101 .Usd =
        some 3 := by
  refine ⟨fun dcell rest => rfl, rfl, ?_, by decide, by decide, by decide, by decide⟩
  intro k v v' m
  induction m with
  | nil => simp [HistoricalExchangeMap.insert]
  | cons hd tl ih =>
    obtain ⟨k', w⟩ := hd
    by_cases h1 : k < k'
    · simp [HistoricalExchangeMap.insert, h1, lt_irrefl]
    · by_cases h2 : k = k'
      · simp [HistoricalExchangeMap.insert, h1, h2, lt_irrefl]
      · simp [HistoricalExchangeMap.insert, h1, h2, ih]

/-- Every entry of `BTreeMap::insert`'s result is the inserted pair or an
entry of the original map. -/
theorem mem_insert_hist {p : ℕ × ExchangeRates} {k : ℕ} {v : ExchangeRates}
    {m : HistoricalExchangeMap} (h : p ∈ HistoricalExchangeMap.insert k v m) :
    p = (k, v) ∨ p ∈ m := by
  induction m with
  | nil => simpa [HistoricalExchangeMap.insert] using h
  | cons hd tl ih =>
    obtain ⟨k', w⟩ := hd
    by_cases h1 : k < k'
    · rw [show HistoricalExchangeMap.insert k v ((k', w) :: tl) = (k, v) :: (k', w) :: tl by
        simp [HistoricalExchangeMap.insert, h1], List.mem_cons, List.mem_cons] at h
      rcases h with h | h | h
      · exact Or.inl h
      · exact Or.inr (by simp [h])
      · exact Or.inr (by simp [h])
    · by_cases h2 : k = k'
      · rw [show HistoricalExchangeMap.insert k v ((k', w) :: tl) = (k, v) :: tl by
          simp [HistoricalExchangeMap.insert, h1, h2], List.mem_cons] at h
        rcases h with h | h
        · exact Or.inl h
        · exact Or.inr (by simp [h])
      · rw [show HistoricalExchangeMap.insert k v ((k', w) :: tl) =
            (k', w) :: HistoricalExchangeMap.insert k v tl by
          simp [HistoricalExchangeMap.insert, h1, h2], List.mem_cons] at h
        rcases h with h | h
        · exact Or.inr (by simp [h])
        · rcases ih h with h' | h'
          · exact Or.inl h'
          · exact Or.inr (by simp [h'])

/-- Looking up the just-inserted key of `HashMap::insert`. -/
theorem insert_self (r : ExchangeRates) (c : Currency) (d : ℚ) :
    (r.insert c d) c = some d := by
  simp [ExchangeRates.insert]

/-- Folding data rows preserves the per-snapshot invariant `EUR ↦ 1`. -/
theorem foldl_insertRow_eur (headers : List (Option Currency)) (lines : List (List Char)) :
    ∀ m0 : HistoricalExchangeMap, (∀ p ∈ m0, p.2 Currency.Eur = some 1) →
      ∀ p ∈ lines.foldl (HistoricalExchangeRates.insertRow headers) m0,
        p.2 Currency.Eur = some 1 := by
  induction lines with
  | nil => intro m0 h0; simpa using h0
  | cons l ls ih =>
    intro m0 h0 p hp
    rw [List.foldl_cons] at hp
    refine ih (HistoricalExchangeRates.insertRow headers m0 l) ?_ p hp
    intro q hq
    have hq' : q ∈ HistoricalExchangeMap.insert (HistoricalExchangeRates.rowDate (splitChar ',' l))
        ((HistoricalExchangeRates.rowRates
          (headers.zip ((splitChar ',' l).drop 1))).insert .Eur 1) m0 := hq
    rcases mem_insert_hist hq' with h | h
    · rw [h]
      simp [ExchangeRates.insert]
    · exact h0 q h

/-- C7: every snapshot produced by `parse_csv` maps the reference currency
EUR to exactly 1, for every input CSV and every data row — the parser
unconditionally inserts `EUR ↦ 1` after folding the row's cells, so even a
parsed EUR column is overwritten. -/
theorem c7_reference_currency_is_one (csv : String) (m : HistoricalExchangeMap)
    (h : HistoricalExchangeRates.parse_csv csv = .ok m) :
    ∀ p ∈ m, p.2 Currency.Eur = some 1 := by
  unfold HistoricalExchangeRates.parse_csv at h
  cases hL : rustLines csv.data with
  | nil =>
    rw [hL] at h
    exact absurd h (by simp)
  | cons hd tl =>
    rw [hL] at h
    injection h with h
    rw [← h]
    exact foldl_insertRow_eur _ tl [] (by simp)

/-- C7 witness: the EUR invariant at a concrete CSV that even lists an EUR
column with the value 5 — the produced snapshot still maps EUR to 1. -/
theorem c7_reference_currency_is_one_witness :
    HistoricalExchangeRates.parse_csv "Date,EUR,USD\n2021-06-03,5,1.2187" =
      .ok ((HistoricalExchangeRates.parse_csv
        "Date,EUR,USD\n2021-06-03,5,1.2187").toOption.getD [])
    ∧ (∀ p ∈ (HistoricalExchangeRates.parse_csv
        "Date,EUR,USD\n2021-06-03,5,1.2187").toOption.getD [],
        p.2 Currency.Eur = some 1)
    ∧ HistoricalExchangeRates.snapshotRate "Date,EUR,USD\n2021-06-03,5,1.2187" 20210603
        Currency.Eur = some 1 := by
  have h : HistoricalExchangeRates.parse_csv "Date,EUR,USD\n2021-06-03,5,1.2187" =
      .ok ((HistoricalExchangeRates.parse_csv
        "Date,EUR,USD\n2021-06-03,5,1.2187").toOption.getD []) := rfl
  exact ⟨h, c7_reference_currency_is_one _ _ h, by decide⟩

/-- Folding row cells none of whose headers resolve to `c` leaves `c`'s
entry unchanged. -/
theorem rowfold_lookup_of_not_mem (l : List (Option Currency × List Char)) (c : Currency) :
    ∀ r0 : ExchangeRates, (∀ x ∈ l, x.1 ≠ some c) →
      (l.foldl HistoricalExchangeRates.rowStep r0) c = r0 c := by
  induction l with
  | nil => intro r0 _; rfl
  | cons x t ih =>
    intro r0 h
    have hx := h x (by simp)
    have ht : ∀ y ∈ t, y.1 ≠ some c := fun y hy => h y (by simp [hy])
    rw [List.foldl_cons, ih _ ht]
    rcases hxo : x.1 with _ | c'
    · simp [HistoricalExchangeRates.rowStep, hxo]
    · have hne : c ≠ c' := by
        intro e
        exact hx (by rw [hxo, e])
      rcases hd : parseDecimal x.2 with _ | d
      · simp [HistoricalExchangeRates.rowStep, hxo, hd]
      · simp [HistoricalExchangeRates.rowStep, hxo, hd, ExchangeRates.insert, hne]

/-- C8 counterexample: in the CSV `"Date,EUR\n2021-06-03,5"` the EUR cell
parses as a decimal under a header that resolves to a known currency, yet
the produced snapshot maps EUR to 1, not to the cell's value 5 — the parsed
cell did not contribute its rate, contradicting the claim's universal
statement. -/
theorem c8_eur_cell_overwritten :
    Currency.reverse_lookup ("EUR".data) = some Currency.Eur
    ∧ parseDecimal ("5".data) = some 5
    ∧ HistoricalExchangeRates.snapshotRate "Date,EUR\n2021-06-03,5" 20210603 Currency.Eur = some 1
    ∧ ¬ HistoricalExchangeRates.snapshotRate "Date,EUR\n2021-06-03,5" 20210603 Currency.Eur =
        some 5 := by
  decide

/-- C8 (amended): a cell that fails to parse as a decimal only omits its own
column's currency; every other cell of the row that parses under a resolved
header still contributes its rate — except the reference currency EUR,
which is always overwritten with 1, and except earlier duplicates of a
currency that resolves from several headers, where the last parseable cell
wins — and the row itself is kept.  Stated over the row fold: if no cell
after the contributing one resolves to `c`, the row's snapshot records the
cell's value for `c`, whatever the earlier cells held; the concrete
blank-cell scenario is checked through `parse_csv`. -/
theorem c8_parsed_cells_contribute (pre post : List (Option Currency × List Char))
    (c : Currency) (v : List Char) (d : ℚ)
    (hc : c ≠ Currency.Eur)
    (hv : parseDecimal v = some d)
    (hpost : ∀ x ∈ post, x.1 ≠ some c) :
    ((HistoricalExchangeRates.rowRates (pre ++ (some c, v) :: post)).insert Currency.Eur 1) c =
      some d
    ∧ HistoricalExchangeRates.snapshotRate "Date,USD,JPY\n2021-06-03,,133.81" 20210603
        Currency.Jpy = some (13381 / 100)
    ∧ HistoricalExchangeRates.snapshotRate "Date,USD,JPY\n2021-06-03,,133.81" 20210603
        Currency.Usd = none
    ∧ (HistoricalExchangeRates.parse_csv "Date,USD,JPY\n2021-06-03,,133.81").toOption.map
        List.length = some 1 := by
  refine ⟨?_, ?_, by decide, by decide⟩
  case refine_2 =>
    simp [HistoricalExchangeRates.snapshotRate, HistoricalExchangeRates.snapshotAt,
      HistoricalExchangeRates.parse_csv, rustLines, splitChar, HistoricalExchangeRates.insertRow,
      HistoricalExchangeRates.rowDate, HistoricalExchangeRates.rowRates,
      HistoricalExchangeRates.rowStep, HistoricalExchangeMap.insert, parseNaiveDate,
      parseNatChars, parseDecimal, parseUnsignedDec, charToDigit, daysInMonth, leapYear,
      defaultDate, Currency.reverse_lookup, Currency.allCases, Currency.strumStr,
      ExchangeRates.insert, ExchangeRates.empty, List.find?, Except.toOption, Option.bind]
    norm_num
  have h1 : ((HistoricalExchangeRates.rowRates (pre ++ (some c, v) :: post))) c = some d := by
    unfold HistoricalExchangeRates.rowRates
    rw [List.foldl_append, List.foldl_cons, rowfold_lookup_of_not_mem post c _ hpost]
    simp [HistoricalExchangeRates.rowStep, hv, ExchangeRates.insert]
  simp [ExchangeRates.insert, hc, h1]

/-- C8 witness: a row `[missing header, USD ↦ "2", JPY ↦ "133.81"]` records
2 for USD. -/
theorem c8_parsed_cells_contribute_witness :
    (Currency.Usd ≠ Currency.Eur)
    ∧ parseDecimal ("2".data) = some 2
    ∧ (∀ x ∈ [(some Currency.Jpy, "133.81".data)], x.1 ≠ some Currency.Usd)
    ∧ ((HistoricalExchangeRates.rowRates
        ([((none : Option Currency), "x".data)] ++
          (some Currency.Usd, "2".data) :: [(some Currency.Jpy, "133.81".data)])).insert
        Currency.Eur 1) Currency.Usd = some 2 := by
  refine ⟨by decide, by decide, by decide, ?_⟩
  exact (c8_parsed_cells_contribute _ _ _ _ _ (by decide) (by decide) (by decide)).1

/-- C3 counterexample: exchanging 0.0625 EUR to USD under the snapshot
`{EUR ↦ 1, USD ↦ 2}` multiplies to 0.125 exactly; `rescale(2)` rounds the
half-way case away from zero to 0.13, while the claim's round-half-to-even
mandates 0.12 — so the code's result differs from the claimed rounding at
this input. -/
theorem c3_rounding_counterexample :
    Money.exchange ⟨1 / 16, .Eur⟩ .Usd ((ExchangeRates.empty.insert .Eur 1).insert .Usd 2) =
      some ⟨13 / 100, .Usd⟩
    ∧ rescale2HalfEven ((1 / 16 : ℚ) * 2) = 12 / 100
    ∧ ¬ Money.exchange ⟨1 / 16, .Eur⟩ .Usd ((ExchangeRates.empty.insert .Eur 1).insert .Usd 2) =
        some ⟨rescale2HalfEven ((1 / 16 : ℚ) * 2), .Usd⟩ := by
  have h1 : Money.exchange ⟨1 / 16, .Eur⟩ .Usd
      ((ExchangeRates.empty.insert .Eur 1).insert .Usd 2) = some ⟨13 / 100, .Usd⟩ := by
    simp [Money.exchange, ExchangeRates.get, ExchangeRates.insert, ExchangeRates.empty,
      rescale2, roundHalfAway]
    norm_num
  have h2 : rescale2HalfEven ((1 / 16 : ℚ) * 2) = 12 / 100 := by
    have hf : ⌊(1 / 16 : ℚ) * 2 * 100⌋ = 12 := by norm_num [Int.floor_eq_iff]
    rw [rescale2HalfEven, roundHalfEven, hf]
    norm_num
  refine ⟨h1, h2, ?_⟩
  rw [h1, h2]
  intro h
  have := (Option.some.injEq _ _).mp h
  have h13 : (13 / 100 : ℚ) = 12 / 100 := congrArg Money.amount this
  norm_num at h13

/-- C3 (amended): exchanging to the value's own currency is a no-op;
otherwise the result is the amount times the snapshot's cross-rate, rescaled
to exactly 2 decimal places with round-half-away-from-zero (the rounding of
`rust_decimal`'s `rescale`, not round-half-to-even), tagged with the target
currency.  Ties round away from zero in both directions, and the concrete
scenario holds: parsing `"Date,USD,JPY\n2021-06-03,1.2187,133.81"` with
reference currency EUR gives one snapshot with `EUR ↦ 1, USD ↦ 1.2187,
JPY ↦ 133.81`, and exchanging 20.00 USD there to JPY yields 2195.95 JPY. -/
theorem c3_exchange_rounds_half_away :
    (∀ (v : Money) (rates : ExchangeRates), Money.exchange v v.currency rates = some v)
    ∧ (∀ (v : Money) (target : Currency) (rates : ExchangeRates) (r : ℚ),
        v.currency ≠ target → rates.get v.currency target = .found r →
        Money.exchange v target rates = some ⟨rescale2 (v.amount * r), target⟩)
    ∧ rescale2 (125 / 1000) = 13 / 100
    ∧ rescale2 (-(125 / 1000)) = -(13 / 100)
    ∧ (HistoricalExchangeRates.parse_csv "Date,USD,JPY\n2021-06-03,1.2187,133.81").toOption.map
        List.length = some 1
    ∧ HistoricalExchangeRates.snapshotRate "Date,USD,JPY\n2021-06-03,1.2187,133.81" 20210603
        .Eur = some 1
    ∧ HistoricalExchangeRates.snapshotRate "Date,USD,JPY\n2021-06-03,1.2187,133.81" 20210603
        .Usd = some (12187 / 10000)
    ∧ HistoricalExchangeRates.snapshotRate "Date,USD,JPY\n2021-06-03,1.2187,133.81" 20210603
        .Jpy = some (13381 / 100)
    ∧ (HistoricalExchangeRates.snapshotAt "Date,USD,JPY\n2021-06-03,1.2187,133.81"
        20210603).map (fun rates => Money.exchange ⟨20, .Usd⟩ .Jpy rates) =
        some (some ⟨219595 / 100, .Jpy⟩) := by
  refine ⟨?_, ?_, ?_, ?_, by decide, ?_, ?_, ?_, ?_⟩
  · intro v rates
    simp [Money.exchange]
  · intro v target rates r h1 h2
    simp [Money.exchange, h1, h2]
  · rw [rescale2, roundHalfAway, if_pos (by norm_num)]
    norm_num [Int.floor_eq_iff]
  · rw [rescale2, roundHalfAway, if_neg (by norm_num)]
    norm_num [Int.floor_eq_iff]
  · simp [HistoricalExchangeRates.snapshotRate, HistoricalExchangeRates.snapshotAt,
      HistoricalExchangeRates.parse_csv, rustLines, splitChar, HistoricalExchangeRates.insertRow,
      HistoricalExchangeRates.rowDate, HistoricalExchangeRates.rowRates,
      HistoricalExchangeRates.rowStep, HistoricalExchangeMap.insert, parseNaiveDate,
      parseNatChars, parseDecimal, parseUnsignedDec, charToDigit, daysInMonth, leapYear,
      defaultDate, Currency.reverse_lookup, Currency.allCases, Currency.strumStr,
      ExchangeRates.insert, ExchangeRates.empty, List.find?, Except.toOption, Option.bind]
  · simp [HistoricalExchangeRates.snapshotRate, HistoricalExchangeRates.snapshotAt,
      HistoricalExchangeRates.parse_csv, rustLines, splitChar, HistoricalExchangeRates.insertRow,
      HistoricalExchangeRates.rowDate, HistoricalExchangeRates.rowRates,
      HistoricalExchangeRates.rowStep, HistoricalExchangeMap.insert, parseNaiveDate,
      parseNatChars, parseDecimal, parseUnsignedDec, charToDigit, daysInMonth, leapYear,
      defaultDate, Currency.reverse_lookup, Currency.allCases, Currency.strumStr,
      ExchangeRates.insert, ExchangeRates.empty, List.find?, Except.toOption, Option.bind]
    norm_num
  · simp [HistoricalExchangeRates.snapshotRate, HistoricalExchangeRates.snapshotAt,
      HistoricalExchangeRates.parse_csv, rustLines, splitChar, HistoricalExchangeRates.insertRow,
      HistoricalExchangeRates.rowDate, HistoricalExchangeRates.rowRates,
      HistoricalExchangeRates.rowStep, HistoricalExchangeMap.insert, parseNaiveDate,
      parseNatChars, parseDecimal, parseUnsignedDec, charToDigit, daysInMonth, leapYear,
      defaultDate, Currency.reverse_lookup, Currency.allCases, Currency.strumStr,
      ExchangeRates.insert, ExchangeRates.empty, List.find?, Except.toOption, Option.bind]
    norm_num
  · simp [HistoricalExchangeRates.snapshotAt,
      HistoricalExchangeRates.parse_csv, rustLines, splitChar, HistoricalExchangeRates.insertRow,
      HistoricalExchangeRates.rowDate, HistoricalExchangeRates.rowRates,
      HistoricalExchangeRates.rowStep, HistoricalExchangeMap.insert, parseNaiveDate,
      parseNatChars, parseDecimal, parseUnsignedDec, charToDigit, daysInMonth, leapYear,
      defaultDate, Currency.reverse_lookup, Currency.allCases, Currency.strumStr,
      ExchangeRates.insert, ExchangeRates.empty, List.find?, Except.toOption, Option.bind,
      Money.exchange, ExchangeRates.get, rescale2, roundHalfAway]
    norm_num

/-- C3 witness: the cross-rate arm of the amended statement at 20.00 USD →
JPY under `{USD ↦ 1.2187, JPY ↦ 133.81}`. -/
theorem c3_exchange_rounds_half_away_witness :
    (Currency.Usd ≠ Currency.Jpy)
    ∧ ((ExchangeRates.empty.insert .Usd (12187 / 10000)).insert .Jpy (13381 / 100)).get
        Currency.Usd Currency.Jpy = .found ((13381 / 100) / (12187 / 10000))
    ∧ Money.exchange ⟨20, .Usd⟩ .Jpy
        ((ExchangeRates.empty.insert .Usd (12187 / 10000)).insert .Jpy (13381 / 100)) =
        some ⟨rescale2 ((20 : ℚ) * ((13381 / 100) / (12187 / 10000))), .Jpy⟩ := by
  have hget : ((ExchangeRates.empty.insert .Usd (12187 / 10000)).insert .Jpy
      (13381 / 100)).get Currency.Usd Currency.Jpy =
      .found ((13381 / 100) / (12187 / 10000)) := by
    simp [ExchangeRates.get, ExchangeRates.insert, ExchangeRates.empty]
  exact ⟨by decide, hget,
    (c3_exchange_rounds_half_away.2.1 ⟨20, .Usd⟩ .Jpy _ _ (by decide) hget)⟩

/-- Rounding half away from zero moves a value by at most 1/2. -/
theorem roundHalfAway_err (x : ℚ) : |(roundHalfAway x : ℚ) - x| ≤ 1 / 2 := by
  unfold roundHalfAway
  by_cases h : 0 ≤ x
  · rw [if_pos h, abs_le]
    have h1 := Int.floor_le (x + 1 / 2)
    have h2 := Int.lt_floor_add_one (x + 1 / 2)
    constructor <;> linarith
  · rw [if_neg h, abs_le]
    have h1 := Int.floor_le (-x + 1 / 2)
    have h2 := Int.lt_floor_add_one (-x + 1 / 2)
    push_cast
    constructor <;> linarith

/-- `rescale(2)` moves a value by at most half a cent. -/
theorem rescale2_err (q : ℚ) : |rescale2 q - q| ≤ 1 / 200 := by
  have h := roundHalfAway_err (q * 100)
  rw [rescale2, show (roundHalfAway (q * 100) : ℚ) / 100 - q =
    ((roundHalfAway (q * 100) : ℚ) - q * 100) / 100 from by ring, abs_div]
  rw [show |(100 : ℚ)| = 100 from by norm_num]
  linarith

/-- Rounding half away from zero fixes integers. -/
theorem roundHalfAway_intCast (k : ℤ) : roundHalfAway (k : ℚ) = k := by
  unfold roundHalfAway
  by_cases h : (0 : ℚ) ≤ (k : ℚ)
  · rw [if_pos h, show (k : ℚ) + 1 / 2 = 1 / 2 + (k : ℤ) from by ring,
      Int.floor_add_int]
    norm_num
  · rw [if_neg h, show -(k : ℚ) + 1 / 2 = 1 / 2 + (-k : ℤ) from by push_cast; ring,
      Int.floor_add_int]
    norm_num

/-- `rescale(2)` fixes amounts that already have two decimal places. -/
theorem rescale2_hundredths (k : ℤ) : rescale2 ((k : ℚ) / 100) = (k : ℚ) / 100 := by
  rw [rescale2, show (k : ℚ) / 100 * 100 = (k : ℚ) from by field_simp, roundHalfAway_intCast]

/-- C4 counterexample: under the snapshot `{EUR ↦ 1, USD ↦ 0.01}` (both
rates positive) the round trip of 0.49 EUR through USD rescales
`0.49 * 0.01 = 0.0049` to `0.00`, and comes back as 0.00 EUR — off from the
original by 49 units in the second decimal place, far more than the one
unit the claim allows. -/
theorem c4_round_trip_counterexample :
    ((ExchangeRates.empty.insert .Eur 1).insert .Usd (1 / 100)) Currency.Eur = some 1
    ∧ ((ExchangeRates.empty.insert .Eur 1).insert .Usd (1 / 100)) Currency.Usd = some (1 / 100)
    ∧ ((Money.exchange ⟨49 / 100, .Eur⟩ .Usd
          ((ExchangeRates.empty.insert .Eur 1).insert .Usd (1 / 100))).bind
        (fun w => Money.exchange w .Eur
          ((ExchangeRates.empty.insert .Eur 1).insert .Usd (1 / 100)))) = some ⟨0, .Eur⟩
    ∧ ¬ |(0 : ℚ) - 49 / 100| ≤ 1 / 100 := by
  refine ⟨by simp [ExchangeRates.insert, ExchangeRates.empty], by simp [ExchangeRates.insert],
    ?_, by rw [abs_le]; norm_num⟩
  simp [Money.exchange, ExchangeRates.get, ExchangeRates.insert, ExchangeRates.empty,
    rescale2, roundHalfAway, Option.bind]
  norm_num

/-- C4 (amended): with positive rates for both currencies, the A→B→A round
trip reproduces the amount to within one unit in the second decimal place
provided the A→B cross-rate is at least 1 (for cross-rates below 1 the
claim fails, see the counterexample); it is exact when A = B, and exact for
two-decimal amounts when the two rates are equal (cross-rate exactly 1 in
both directions, the reference-currency case). -/
theorem c4_round_trip_bounded (rates : ExchangeRates) (A B : Currency) (ra rb a : ℚ) (k : ℤ)
    (hA : rates A = some ra) (hB : rates B = some rb)
    (hra : 0 < ra) (hrb : 0 < rb) (hAB : A ≠ B) :
    (1 ≤ rb / ra →
      ((Money.exchange ⟨a, A⟩ B rates).bind (fun w => Money.exchange w A rates)) =
        some ⟨rescale2 (rescale2 (a * (rb / ra)) * (ra / rb)), A⟩
      ∧ |rescale2 (rescale2 (a * (rb / ra)) * (ra / rb)) - a| ≤ 1 / 100)
    ∧ (ra = rb →
      ((Money.exchange ⟨(k : ℚ) / 100, A⟩ B rates).bind (fun w => Money.exchange w A rates)) =
        some ⟨(k : ℚ) / 100, A⟩)
    ∧ (∀ v : Money,
      ((Money.exchange v v.currency rates).bind (fun w => Money.exchange w v.currency rates)) =
        some v) := by
  have hra' : ra ≠ 0 := ne_of_gt hra
  have hrb' : rb ≠ 0 := ne_of_gt hrb
  have hBA : B ≠ A := Ne.symm hAB
  have e1 : ∀ x : ℚ, Money.exchange ⟨x, A⟩ B rates = some ⟨rescale2 (x * (rb / ra)), B⟩ := by
    intro x
    simp [Money.exchange, hAB, ExchangeRates.get, hA, hB, hra']
  have e2 : ∀ x : ℚ, Money.exchange ⟨x, B⟩ A rates = some ⟨rescale2 (x * (ra / rb)), A⟩ := by
    intro x
    simp [Money.exchange, hBA, ExchangeRates.get, hA, hB, hrb']
  refine ⟨fun hr => ?_, fun hab => ?_, fun v => ?_⟩
  · constructor
    · rw [e1 a, Option.some_bind, e2]
    · set b := rescale2 (a * (rb / ra)) with hb
      have h1 : |b - a * (rb / ra)| ≤ 1 / 200 := rescale2_err _
      have h2 : |rescale2 (b * (ra / rb)) - b * (ra / rb)| ≤ 1 / 200 := rescale2_err _
      have key : b * (ra / rb) - a = (b - a * (rb / ra)) * (ra / rb) := by
        field_simp
        ring
      have hpos : 0 < ra / rb := div_pos hra hrb
      have hle1 : ra / rb ≤ 1 := by
        rw [div_le_one hrb]
        have := (le_div_iff₀ hra).mp hr
        linarith
      have h3 : |b * (ra / rb) - a| ≤ 1 / 200 := by
        rw [key, abs_mul, abs_of_pos hpos]
        calc |b - a * (rb / ra)| * (ra / rb) ≤ 1 / 200 * 1 :=
              mul_le_mul h1 hle1 (le_of_lt hpos) (by norm_num)
          _ = 1 / 200 := by norm_num
      calc |rescale2 (b * (ra / rb)) - a|
          ≤ |rescale2 (b * (ra / rb)) - b * (ra / rb)| + |b * (ra / rb) - a| := abs_sub_le _ _ _
        _ ≤ 1 / 200 + 1 / 200 := add_le_add h2 h3
        _ = 1 / 100 := by norm_num
  · have hd1 : rb / ra = 1 := by
      rw [← hab]
      exact div_self hra'
    have hd2 : ra / rb = 1 := by
      rw [hab]
      exact div_self hrb'
    rw [e1 ((k : ℚ) / 100), Option.some_bind, e2]
    rw [hd1, mul_one, rescale2_hundredths, hd2, mul_one, rescale2_hundredths]
  · simp [Money.exchange, Option.bind]

/-- C4 witness: a 0.35 EUR → USD → EUR round trip under
`{EUR ↦ 1, USD ↦ 2}` stays within one unit of the second decimal place. -/
theorem c4_round_trip_bounded_witness :
    ((ExchangeRates.empty.insert .Eur 1).insert .Usd 2) Currency.Eur = some 1
    ∧ ((ExchangeRates.empty.insert .Eur 1).insert .Usd 2) Currency.Usd = some 2
    ∧ ((0 : ℚ) < 1) ∧ ((0 : ℚ) < 2) ∧ (Currency.Eur ≠ Currency.Usd) ∧ (1 ≤ (2 : ℚ) / 1)
    ∧ |rescale2 (rescale2 ((7 / 20 : ℚ) * (2 / 1)) * (1 / 2)) - 7 / 20| ≤ 1 / 100 := by
  have hA : ((ExchangeRates.empty.insert .Eur 1).insert .Usd 2) Currency.Eur = some 1 := by
    simp [ExchangeRates.insert, ExchangeRates.empty]
  have hB : ((ExchangeRates.empty.insert .Eur 1).insert .Usd 2) Currency.Usd = some 2 := by
    simp [ExchangeRates.insert]
  exact ⟨hA, hB, by norm_num, by norm_num, by decide, by norm_num,
    ((c4_round_trip_bounded _ _ _ _ _ (7 / 20) 0 hA hB (by norm_num) (by norm_num)
      (by decide)).1 (by norm_num)).2⟩

/-- `getLast?` of a cons with a non-empty tail is `getLast?` of the tail. -/
theorem getLast?_cons_of_ne_nil {α : Type} (a : α) {l : List α} (h : l ≠ []) :
    (a :: l).getLast? = l.getLast? := by
  cases l with
  | nil => exact absurd rfl h
  | cons b t => exact List.getLast?_cons_cons

/-- On a strictly ascending map, `range(..=naive).next_back()` returns the
entry whose key is maximal among those `≤ naive`. -/
theorem rangeToLast_eq_of_max {history : HistoricalExchangeMap} {naive : ℕ}
    (hs : List.Pairwise (fun a b : ℕ × ExchangeRates => a.1 < b.1) history)
    {p : ℕ × ExchangeRates} (hmem : p ∈ history) (hle : p.1 ≤ naive)
    (hmax : ∀ q ∈ history, q.1 ≤ naive → q.1 ≤ p.1) :
    HistoricalExchangeRates.rangeToLast history naive = some p := by
  induction history with
  | nil => cases hmem
  | cons a t ih =>
    rw [List.pairwise_cons] at hs
    rcases List.mem_cons.mp hmem with h | h
    · subst h
      have ht : t.filter (fun q => decide (q.1 ≤ naive)) = [] := by
        rw [List.filter_eq_nil_iff]
        intro q hq
        simp only [decide_eq_true_eq]
        intro hqle
        exact absurd (hmax q (List.mem_cons_of_mem p hq) hqle) (not_le.mpr (hs.1 q hq))
      unfold HistoricalExchangeRates.rangeToLast
      rw [List.filter_cons_of_pos (by simp [hle]), ht]
      rfl
    · have ha : a.1 < p.1 := hs.1 p h
      have ih' := ih hs.2 h (fun q hq hqle => hmax q (List.mem_cons_of_mem a hq) hqle)
      unfold HistoricalExchangeRates.rangeToLast at ih' ⊢
      have hne : t.filter (fun q => decide (q.1 ≤ naive)) ≠ [] := by
        intro e
        rw [e] at ih'
        exact Option.noConfusion ih'
      rw [List.filter_cons_of_pos (by simp only [decide_eq_true_eq]; omega)]
      rw [getLast?_cons_of_ne_nil _ hne]
      exact ih'

/-- When every key exceeds `naive`, `range(..=naive).next_back()` is empty. -/
theorem rangeToLast_eq_none {history : HistoricalExchangeMap} {naive : ℕ}
    (hall : ∀ q ∈ history, naive < q.1) :
    HistoricalExchangeRates.rangeToLast history naive = none := by
  unfold HistoricalExchangeRates.rangeToLast
  rw [List.filter_eq_nil_iff.mpr ?_]
  · rfl
  · intro q hq
    simp only [decide_eq_true_eq]
    exact not_le.mpr (hall q hq)

/-- On a strictly ascending map, `range(naive..).next()` returns the entry
whose key is minimal among those `≥ naive`. -/
theorem rangeFromFirst_eq_of_min {history : HistoricalExchangeMap} {naive : ℕ}
    (hs : List.Pairwise (fun a b : ℕ × ExchangeRates => a.1 < b.1) history)
    {p : ℕ × ExchangeRates} (hmem : p ∈ history) (hge : naive ≤ p.1)
    (hmin : ∀ q ∈ history, naive ≤ q.1 → p.1 ≤ q.1) :
    HistoricalExchangeRates.rangeFromFirst history naive = some p := by
  induction history with
  | nil => cases hmem
  | cons a t ih =>
    rw [List.pairwise_cons] at hs
    rcases List.mem_cons.mp hmem with h | h
    · subst h
      unfold HistoricalExchangeRates.rangeFromFirst
      rw [List.filter_cons_of_pos (by simp [hge])]
      rfl
    · have ha : a.1 < p.1 := hs.1 p h
      have hna : ¬ naive ≤ a.1 := by
        intro hcon
        exact absurd (hmin a (by simp) hcon) (not_le.mpr ha)
      unfold HistoricalExchangeRates.rangeFromFirst at *
      rw [List.filter_cons_of_neg (by simp [hna])]
      exact ih hs.2 h (fun q hq hqle => hmin q (List.mem_cons_of_mem a hq) hqle)

/-- C2: nearest-date resolution on a strictly ascending history map: an
exact key wins; otherwise the greatest key below the requested date;
otherwise (every key above the date) the smallest key; `none` exactly on an
empty map; and an omitted date defaults to today. -/
theorem c2_get_ref_from_nearest_date (history : HistoricalExchangeMap)
    (hs : List.Pairwise (fun a b : ℕ × ExchangeRates => a.1 < b.1) history)
    (d today : ℕ) :
    (∀ r : ExchangeRates, (d, r) ∈ history →
        HistoricalExchangeRates.get_ref_from history (some d) today = some r)
    ∧ (∀ (k : ℕ) (r : ExchangeRates), (k, r) ∈ history → k < d →
        (∀ q ∈ history, q.1 ≤ d → q.1 ≤ k) →
        HistoricalExchangeRates.get_ref_from history (some d) today = some r)
    ∧ ((∀ q ∈ history, d < q.1) → ∀ (k : ℕ) (r : ExchangeRates), (k, r) ∈ history →
        (∀ q ∈ history, k ≤ q.1) →
        HistoricalExchangeRates.get_ref_from history (some d) today = some r)
    ∧ (HistoricalExchangeRates.get_ref_from history (some d) today = none ↔ history = [])
    ∧ HistoricalExchangeRates.get_ref_from history none today =
        HistoricalExchangeRates.get_ref_from history (some today) today := by
  refine ⟨?_, ?_, ?_, ⟨?_, ?_⟩, rfl⟩
  · intro r hmem
    have h := rangeToLast_eq_of_max hs hmem (le_refl d) (fun q _ hq => hq)
    unfold HistoricalExchangeRates.get_ref_from
    simp only [Option.getD_some]
    rw [h]
  · intro k r hmem hk hmax
    have h := rangeToLast_eq_of_max hs hmem (le_of_lt hk) hmax
    unfold HistoricalExchangeRates.get_ref_from
    simp only [Option.getD_some]
    rw [h]
  · intro hall k r hmem hmin
    have h1 := rangeToLast_eq_none hall
    have h2 := rangeFromFirst_eq_of_min hs hmem (le_of_lt (hall _ hmem))
      (fun q hq _ => hmin q hq)
    unfold HistoricalExchangeRates.get_ref_from
    simp only [Option.getD_some]
    rw [h1, h2]
    rfl
  · intro hnone
    by_contra hne
    obtain ⟨a, t, rfl⟩ := List.exists_cons_of_ne_nil hne
    unfold HistoricalExchangeRates.get_ref_from at hnone
    simp only [Option.getD_some] at hnone
    rcases hR : HistoricalExchangeRates.rangeToLast (a :: t) d with _ | p
    · rw [hR] at hnone
      have hfil : (a :: t).filter (fun q => decide (q.1 ≤ d)) = [] := by
        unfold HistoricalExchangeRates.rangeToLast at hR
        exact List.getLast?_eq_none_iff.mp hR
      have had : ¬ a.1 ≤ d := by
        intro hcon
        have hmemf : a ∈ (a :: t).filter (fun q => decide (q.1 ≤ d)) :=
          List.mem_filter.mpr ⟨by simp, by simp [hcon]⟩
        rw [hfil] at hmemf
        cases hmemf
      unfold HistoricalExchangeRates.rangeFromFirst at hnone
      rw [List.filter_cons_of_pos (by simp only [decide_eq_true_eq]; omega)] at hnone
      simp at hnone
    · rw [hR] at hnone
      simp at hnone
  · rintro rfl
    rfl

/-- C2 witness: in the three-key history `{1, 3, 5}` the date 2 (strictly
between the first two keys) resolves to the snapshot at key 1. -/
theorem c2_get_ref_from_nearest_date_witness :
    List.Pairwise (fun a b : ℕ × ExchangeRates => a.1 < b.1)
      [(1, fun _ => some 1), (3, fun _ => some 2), (5, fun _ => some 3)]
    ∧ ((1 : ℕ), (fun _ => some 1 : ExchangeRates)) ∈
        [((1 : ℕ), (fun _ => some 1 : ExchangeRates)), (3, fun _ => some 2),
          (5, fun _ => some 3)]
    ∧ (1 : ℕ) < 2
    ∧ (∀ q ∈ [((1 : ℕ), (fun _ => some 1 : ExchangeRates)), (3, fun _ => some 2),
        (5, fun _ => some 3)], q.1 ≤ 2 → q.1 ≤ 1)
    ∧ HistoricalExchangeRates.get_ref_from
        [(1, fun _ => some 1), (3, fun _ => some 2), (5, fun _ => some 3)] (some 2) 9 =
        some (fun _ => some 1) := by
  have hp : List.Pairwise (fun a b : ℕ × ExchangeRates => a.1 < b.1)
      [(1, fun _ => some 1), (3, fun _ => some 2), (5, fun _ => some 3)] := by
    simp [List.pairwise_cons]
  have hmem : ((1 : ℕ), (fun _ => some 1 : ExchangeRates)) ∈
      [((1 : ℕ), (fun _ => some 1 : ExchangeRates)), (3, fun _ => some 2),
        (5, fun _ => some 3)] := List.mem_cons_self _ _
  have hmax : ∀ q ∈ [((1 : ℕ), (fun _ => some 1 : ExchangeRates)), (3, fun _ => some 2),
      (5, fun _ => some 3)], q.1 ≤ 2 → q.1 ≤ 1 := by
    intro q hq
    rcases List.mem_cons.mp hq with h | h
    · rw [h]
      intro _
      exact le_refl 1
    · rcases List.mem_cons.mp h with h' | h'
      · rw [h']
        intro hcon
        exact absurd hcon (by norm_num)
      · rcases List.mem_cons.mp h' with h'' | h''
        · rw [h'']
          intro hcon
          exact absurd hcon (by norm_num)
        · cases h''
  exact ⟨hp, hmem, by norm_num,
    hmax, (c2_get_ref_from_nearest_date _ hp 2 9).2.1 1 (fun _ => some 1) hmem
      (by norm_num) hmax⟩

/-- The base-10 accumulator fold underlying `parseNatChars`, on digit
values. -/
def foldTen (a : ℕ) (L : List ℕ) : ℕ :=
  L.foldl (fun x d => 10 * x + d) a

/-- Peeling the accumulator out of `foldTen`. -/
theorem foldTen_shift (L : List ℕ) : ∀ a : ℕ, foldTen a L = a * 10 ^ L.length + foldTen 0 L := by
  induction L with
  | nil => intro a; simp [foldTen]
  | cons d t ih =>
    intro a
    show foldTen (10 * a + d) t = a * 10 ^ (d :: t).length + foldTen (10 * 0 + d) t
    rw [ih (10 * a + d), ih (10 * 0 + d), List.length_cons]
    ring

/-- `foldTen` across an append. -/
theorem foldTen_append (X Y : List ℕ) :
    foldTen 0 (X ++ Y) = foldTen 0 X * 10 ^ Y.length + foldTen 0 Y := by
  show (X ++ Y).foldl (fun x d => 10 * x + d) 0 = _
  rw [List.foldl_append]
  exact foldTen_shift Y _

/-- Leading zeros contribute nothing. -/
theorem foldTen_replicate_zero (k : ℕ) : foldTen 0 (List.replicate k 0) = 0 := by
  induction k with
  | zero => rfl
  | succ n ih =>
    rw [List.replicate_succ]
    show foldTen (10 * 0 + 0) (List.replicate n 0) = 0
    simpa using ih

/-- Folding the reversed little-endian digits reconstructs `ofDigits`. -/
theorem foldTen_reverse (L : List ℕ) : foldTen 0 L.reverse = Nat.ofDigits 10 L := by
  induction L with
  | nil => rfl
  | cons d t ih =>
    rw [List.reverse_cons, foldTen_append, ih, Nat.ofDigits_cons]
    show _ = d + 10 * Nat.ofDigits 10 t
    have h1 : foldTen 0 [d] = d := by simp [foldTen]
    rw [h1, List.length_singleton]
    ring

/-- Folding the big-endian digits of `n` gives back `n`. -/
theorem foldTen_digits (n : ℕ) : foldTen 0 ((Nat.digits 10 n).reverse) = n := by
  rw [foldTen_reverse, Nat.ofDigits_digits]

/-- `charToDigit` inverts `Nat.digitChar` on digits. -/
theorem charToDigit_digitChar {d : ℕ} (h : d < 10) :
    charToDigit (Nat.digitChar d) = d := by
  interval_cases d <;> rfl

/-- `Nat.digitChar` of a digit is an ASCII digit. -/
theorem isDigit_digitChar {d : ℕ} (h : d < 10) : (Nat.digitChar d).isDigit = true := by
  interval_cases d <;> decide

/-- Every character printed by `digitCharsBE` is an ASCII digit. -/
theorem digitCharsBE_all_digits (n : ℕ) : ∀ c ∈ digitCharsBE n, c.isDigit = true := by
  intro c hc
  unfold digitCharsBE at hc
  rw [List.mem_reverse, List.mem_map] at hc
  obtain ⟨d, hd, rfl⟩ := hc
  exact isDigit_digitChar (Nat.digits_lt_base (by norm_num) hd)

/-- Reading the printed digits back as digit values. -/
theorem map_charToDigit_digitCharsBE (n : ℕ) :
    (digitCharsBE n).map charToDigit = (Nat.digits 10 n).reverse := by
  unfold digitCharsBE
  rw [List.map_reverse, List.map_map]
  congr 1
  have h : ∀ d ∈ Nat.digits 10 n, (charToDigit ∘ Nat.digitChar) d = id d := fun d hd =>
    charToDigit_digitChar (Nat.digits_lt_base (by norm_num) hd)
  rw [List.map_congr_left h, List.map_id]

/-- Every character of the padded digit string is an ASCII digit. -/
theorem paddedChars_all_digits (n p : ℕ) : ∀ c ∈ paddedChars n p, c.isDigit = true := by
  intro c hc
  unfold paddedChars at hc
  rcases List.mem_append.mp hc with h | h
  · rw [List.eq_of_mem_replicate h]
    decide
  · exact digitCharsBE_all_digits n c h

/-- The padded digit string reads back as `n`. -/
theorem foldTen_paddedChars (n p : ℕ) : foldTen 0 ((paddedChars n p).map charToDigit) = n := by
  unfold paddedChars
  rw [List.map_append, foldTen_append, map_charToDigit_digitCharsBE, foldTen_digits]
  have hz : (List.replicate (p + 1 - (digitCharsBE n).length) '0').map charToDigit =
      List.replicate (p + 1 - (digitCharsBE n).length) 0 := by
    rw [List.map_replicate]
    rfl
  rw [hz, foldTen_replicate_zero]
  ring

/-- The padded digit string has at least `p + 1` characters. -/
theorem paddedChars_length (n p : ℕ) : p + 1 ≤ (paddedChars n p).length := by
  unfold paddedChars
  rw [List.length_append, List.length_replicate]
  omega

/-- `parseNatChars` on a non-empty all-digit list is the digit fold. -/
theorem parseNatChars_eq {cs : List Char} (hne : cs ≠ [])
    (hdig : ∀ c ∈ cs, c.isDigit = true) :
    parseNatChars cs = some (foldTen 0 (cs.map charToDigit)) := by
  unfold parseNatChars
  rw [if_neg hne, if_pos (List.all_eq_true.mpr hdig)]
  unfold foldTen
  rw [List.foldl_map]

/-- An ASCII digit is not a point. -/
theorem digit_bne_dot {c : Char} (h : c.isDigit = true) : (c != '.') = true := by
  rw [bne_iff_ne]
  intro e
  subst e
  exact absurd h (by decide)

/-- An ASCII digit is not a space. -/
theorem digit_ne_space {c : Char} (h : c.isDigit = true) : c ≠ ' ' := by
  intro e
  subst e
  exact absurd h (by decide)

/-- An ASCII digit is not a minus sign. -/
theorem digit_ne_minus {c : Char} (h : c.isDigit = true) : c ≠ '-' := by
  intro e
  subst e
  exact absurd h (by decide)

/-- An ASCII digit is not a plus sign. -/
theorem digit_ne_plus {c : Char} (h : c.isDigit = true) : c ≠ '+' := by
  intro e
  subst e
  exact absurd h (by decide)

/-- `takeWhile`/`dropWhile` split a dot-free prefix at the point. -/
theorem takeWhile_dropWhile_dot {I F : List Char} (hI : ∀ c ∈ I, (c != '.') = true) :
    (I ++ '.' :: F).takeWhile (fun c => c != '.') = I
    ∧ (I ++ '.' :: F).dropWhile (fun c => c != '.') = '.' :: F := by
  induction I with
  | nil => constructor <;> simp [List.takeWhile, List.dropWhile]
  | cons c t ih =>
    have hc := hI c (by simp)
    have ht : ∀ x ∈ t, (x != '.') = true := fun x hx => hI x (by simp [hx])
    obtain ⟨ih1, ih2⟩ := ih ht
    constructor
    · rw [List.cons_append, List.takeWhile_cons, if_pos hc, ih1]
    · rw [List.cons_append, List.dropWhile_cons, if_pos hc, ih2]

/-- `takeWhile`/`dropWhile` on an all-digit (hence dot-free) list. -/
theorem takeWhile_dropWhile_no_dot {S : List Char} (hS : ∀ c ∈ S, (c != '.') = true) :
    S.takeWhile (fun c => c != '.') = S ∧ S.dropWhile (fun c => c != '.') = [] := by
  induction S with
  | nil => constructor <;> rfl
  | cons c t ih =>
    have hc := hS c (by simp)
    have ht : ∀ x ∈ t, (x != '.') = true := fun x hx => hS x (by simp [hx])
    obtain ⟨ih1, ih2⟩ := ih ht
    constructor
    · rw [List.takeWhile_cons, if_pos hc, ih1]
    · rw [List.dropWhile_cons, if_pos hc, ih2]

/-- `parseUnsignedDec` when the input has no point. -/
theorem parseUnsignedDec_no_dot {cs : List Char}
    (h : cs.dropWhile (fun c => c != '.') = []) :
    parseUnsignedDec cs =
      (parseNatChars (cs.takeWhile (fun c => c != '.'))).map (fun k => (k : ℚ)) := by
  unfold parseUnsignedDec
  rw [h]

/-- `parseUnsignedDec` when the input splits at a point. -/
theorem parseUnsignedDec_dot {cs F : List Char}
    (h : cs.dropWhile (fun c => c != '.') = '.' :: F) :
    parseUnsignedDec cs =
      match parseNatChars (cs.takeWhile (fun c => c != '.')), parseNatChars F with
      | some a, some f => some ((a : ℚ) + (f : ℚ) / 10 ^ F.length)
      | _, _ => none := by
  unfold parseUnsignedDec
  rw [h]

/-- Reading back the unsigned display of `Decimal::new(n, p)`'s magnitude
yields exactly `n / 10 ^ p`. -/
theorem parseUnsignedDec_decimalChars (n p : ℕ) :
    parseUnsignedDec (unsignedDecimalChars n p) = some ((n : ℚ) / 10 ^ p) := by
  have hlen := paddedChars_length n p
  have hdigS := paddedChars_all_digits n p
  by_cases hp : p = 0
  · subst hp
    have hS : unsignedDecimalChars n 0 = paddedChars n 0 := by
      unfold unsignedDecimalChars
      simp
    rw [hS]
    have hne : paddedChars n 0 ≠ [] := by
      intro e
      rw [e] at hlen
      simp at hlen
    obtain ⟨htake, hdrop⟩ :=
      takeWhile_dropWhile_no_dot (fun c hc => digit_bne_dot (hdigS c hc))
    rw [parseUnsignedDec_no_dot hdrop, htake, parseNatChars_eq hne hdigS, foldTen_paddedChars]
    simp
  · set S := paddedChars n p with hSdef
    set I := S.take (S.length - p) with hIdef
    set F := S.drop (S.length - p) with hFdef
    have hIF : I ++ F = S := List.take_append_drop _ _
    have hI_digits : ∀ c ∈ I, c.isDigit = true := fun c hc =>
      hdigS c (List.mem_of_mem_take hc)
    have hF_digits : ∀ c ∈ F, c.isDigit = true := fun c hc =>
      hdigS c (List.mem_of_mem_drop hc)
    have hFlen : F.length = p := by
      rw [hFdef, List.length_drop]
      omega
    have hIlen : I.length = S.length - p := by
      rw [hIdef, List.length_take]
      omega
    have hIne : I ≠ [] := by
      intro e
      have h0 : I.length = 0 := by rw [e]; rfl
      omega
    have hFne : F ≠ [] := by
      intro e
      have h0 : F.length = 0 := by rw [e]; rfl
      omega
    have hU : unsignedDecimalChars n p = I ++ '.' :: F := by
      unfold unsignedDecimalChars
      rw [if_neg hp]
    rw [hU]
    obtain ⟨htake, hdrop⟩ :=
      takeWhile_dropWhile_dot (fun c hc => digit_bne_dot (hI_digits c hc))
    rw [parseUnsignedDec_dot hdrop, htake, parseNatChars_eq hIne hI_digits,
      parseNatChars_eq hFne hF_digits]
    show some ((foldTen 0 (I.map charToDigit) : ℚ) +
        (foldTen 0 (F.map charToDigit) : ℚ) / 10 ^ F.length) = some ((n : ℚ) / 10 ^ p)
    have hval : foldTen 0 (I.map charToDigit) * 10 ^ p + foldTen 0 (F.map charToDigit) = n := by
      have h := foldTen_paddedChars n p
      rw [← hSdef, ← hIF, List.map_append, foldTen_append] at h
      rw [List.length_map, hFlen] at h
      exact h
    have hF10 : ((10 : ℚ) ^ F.length) = 10 ^ p := by rw [hFlen]
    rw [hF10]
    congr 1
    have h10 : ((10 : ℚ) ^ p) ≠ 0 := by positivity
    field_simp
    push_cast [← hval]
    ring

/-- The unsigned display starts with a digit. -/
theorem unsignedDecimalChars_head (n p : ℕ) :
    ∃ c cs, unsignedDecimalChars n p = c :: cs ∧ c.isDigit = true := by
  have hlen := paddedChars_length n p
  have hne : (paddedChars n p).take ((paddedChars n p).length - p) ≠ [] := by
    intro e
    have h0 : ((paddedChars n p).take ((paddedChars n p).length - p)).length = 0 := by
      rw [e]
      rfl
    rw [List.length_take] at h0
    omega
  obtain ⟨c, I', hI⟩ := List.exists_cons_of_ne_nil hne
  have hcdig : c.isDigit = true := by
    have hc : c ∈ (paddedChars n p).take ((paddedChars n p).length - p) := by
      rw [hI]
      simp
    exact paddedChars_all_digits n p c (List.mem_of_mem_take hc)
  refine ⟨c, I' ++ (if p = 0 then [] else
    '.' :: (paddedChars n p).drop ((paddedChars n p).length - p)), ?_, hcdig⟩
  unfold unsignedDecimalChars
  rw [hI, List.cons_append]

/-- Reading back the full display of `Decimal::new(m, p)` yields exactly
`m / 10 ^ p`. -/
theorem parseDecimal_decimalChars (m : ℤ) (p : ℕ) :
    parseDecimal (decimalChars m p) = some ((m : ℚ) / 10 ^ p) := by
  obtain ⟨c, cs, hu, hcdig⟩ := unsignedDecimalChars_head m.natAbs p
  by_cases hm : m < 0
  · have hd : decimalChars m p = '-' :: unsignedDecimalChars m.natAbs p := by
      unfold decimalChars
      rw [if_pos hm]
      rfl
    have hstep : parseDecimal ('-' :: unsignedDecimalChars m.natAbs p) =
        (parseUnsignedDec (unsignedDecimalChars m.natAbs p)).map (fun q => -q) := rfl
    have habs : ((m.natAbs : ℚ)) = -(m : ℚ) := by
      rw [Int.cast_natAbs, abs_of_neg hm]
      push_cast
      ring
    rw [hd, hstep, parseUnsignedDec_decimalChars, Option.map_some', habs]
    congr 1
    ring
  · have hd : decimalChars m p = unsignedDecimalChars m.natAbs p := by
      unfold decimalChars
      rw [if_neg hm]
      rfl
    have hstep : parseDecimal (c :: cs) = parseUnsignedDec (c :: cs) := by
      show (if c = '-' then (parseUnsignedDec cs).map (fun q => -q)
        else if c = '+' then parseUnsignedDec cs else parseUnsignedDec (c :: cs)) =
        parseUnsignedDec (c :: cs)
      rw [if_neg (digit_ne_minus hcdig), if_neg (digit_ne_plus hcdig)]
    have habs : ((m.natAbs : ℚ)) = (m : ℚ) := by
      rw [Int.cast_natAbs, abs_of_nonneg (not_lt.mp hm)]
    rw [hd, hu, hstep, ← hu, parseUnsignedDec_decimalChars, habs]

/-- `str::split` of a separator-free string is one piece. -/
theorem splitChar_of_not_mem {sep : Char} {B : List Char} (h : sep ∉ B) :
    splitChar sep B = [B] := by
  induction B with
  | nil => rfl
  | cons c t ih =>
    have hc : ¬ c = sep := fun e => h (by simp [e])
    have ht : sep ∉ t := fun e => h (by simp [e])
    unfold splitChar
    rw [if_neg hc, ih ht]

/-- `str::split` peels a separator-free first piece. -/
theorem splitChar_append {sep : Char} {A B : List Char} (h : sep ∉ A) :
    splitChar sep (A ++ sep :: B) = A :: splitChar sep B := by
  induction A with
  | nil => simp [splitChar]
  | cons c t ih =>
    have hc : ¬ c = sep := fun e => h (by simp [e])
    have ht : sep ∉ t := fun e => h (by simp [e])
    rw [List.cons_append]
    have hunf : splitChar sep (c :: (t ++ sep :: B)) =
        if c = sep then [] :: splitChar sep (t ++ sep :: B)
        else match splitChar sep (t ++ sep :: B) with
          | [] => [[c]]
          | h :: t2 => (c :: h) :: t2 := rfl
    rw [hunf, if_neg hc, ih ht]

/-- Characters of the unsigned display: digits or the point. -/
theorem mem_unsignedDecimalChars {n p : ℕ} {c : Char} (h : c ∈ unsignedDecimalChars n p) :
    c.isDigit = true ∨ c = '.' := by
  unfold unsignedDecimalChars at h
  rcases List.mem_append.mp h with h | h
  · exact Or.inl (paddedChars_all_digits n p c (List.mem_of_mem_take h))
  · by_cases hp : p = 0
    · rw [if_pos hp] at h
      exact absurd h (List.not_mem_nil _)
    · rw [if_neg hp] at h
      rcases List.mem_cons.mp h with h | h
      · exact Or.inr h
      · exact Or.inl (paddedChars_all_digits n p c (List.mem_of_mem_drop h))

/-- The displayed amount contains no space. -/
theorem decimalChars_no_space (m : ℤ) (p : ℕ) : ' ' ∉ decimalChars m p := by
  intro hmem
  unfold decimalChars at hmem
  rcases List.mem_append.mp hmem with h | h
  · by_cases hm : m < 0
    · rw [if_pos hm] at h
      rcases List.mem_cons.mp h with h | h
      · exact absurd h (by decide)
      · exact absurd h (List.not_mem_nil _)
    · rw [if_neg hm] at h
      exact absurd h (List.not_mem_nil _)
  · rcases mem_unsignedDecimalChars h with h1 | h1
    · exact digit_ne_space h1 rfl
    · exact absurd h1 (by decide)

/-- `reverse_lookup` finds every canonical code string. -/
theorem reverse_lookup_strumStr (c : Currency) :
    Currency.reverse_lookup (Currency.strumStr c).data = some c := by
  cases c <;> decide

/-- Canonical code strings contain no space. -/
theorem strumStr_no_space (c : Currency) : ' ' ∉ (Currency.strumStr c).data := by
  cases c <;> decide

/-- The success path of `Money::from_str`, given how the split, the amount
parse and the currency lookup come out. -/
theorem from_str_ok {s : String} {A : List Char} {R : List (List Char)}
    (hsplit : splitChar ' ' s.data = A :: R) {q : ℚ} (hq : parseDecimal A = some q)
    {B : List Char} (hR : R.head? = some B) {c : Currency}
    (hc : Currency.reverse_lookup B = some c) :
    Money.from_str s = .ok ⟨q, c⟩ := by
  unfold Money.from_str
  rw [hsplit]
  simp only [hq, hR, hc]

/-- C9 counterexample: the claim quantifies over every `u32` number of
decimal places, but `Money::new` builds `Decimal::new(mantissa, places)`,
which panics when `places > 28`: at `(1, 29, EUR)` no `Money` is produced
at all, so the display/parse round trip fails as stated. -/
theorem c9_new_panics_beyond_max_scale : Money.new 1 29 Currency.Eur = none := by
  decide

/-- C9 (amended): for every mantissa, every `decimal_places ≤ 28` and every
currency, `Money::new` succeeds with the exact value `mantissa / 10 ^
places`, and formatting it as `"<amount> <CODE>"` then parsing that text
back yields an equal `Money`. -/
theorem c9_display_parse_round_trip (m : ℤ) (p : ℕ) (c : Currency) (hp : p ≤ 28) :
    Money.new m p c = some ⟨(m : ℚ) / 10 ^ p, c⟩
    ∧ Money.from_str (Money.display_new m p c) = .ok ⟨(m : ℚ) / 10 ^ p, c⟩ := by
  constructor
  · unfold Money.new
    rw [if_pos hp]
  · have hsplit : splitChar ' ' (Money.display_new m p c).data =
        decimalChars m p :: [(Currency.strumStr c).data] := by
      rw [show (Money.display_new m p c).data =
        decimalChars m p ++ ' ' :: (Currency.strumStr c).data from rfl]
      rw [splitChar_append (decimalChars_no_space m p),
        splitChar_of_not_mem (strumStr_no_space c)]
    exact from_str_ok hsplit (parseDecimal_decimalChars m p) rfl
      (reverse_lookup_strumStr c)

/-- C9 witness: the round trip at `Money::new(-305, 2, USD)`, displayed as
`"-3.05 USD"`. -/
theorem c9_display_parse_round_trip_witness :
    (2 : ℕ) ≤ 28
    ∧ Money.new (-305) 2 Currency.Usd = some ⟨((-305 : ℤ) : ℚ) / 10 ^ 2, Currency.Usd⟩
    ∧ Money.from_str (Money.display_new (-305) 2 Currency.Usd) =
        .ok ⟨((-305 : ℤ) : ℚ) / 10 ^ 2, Currency.Usd⟩ :=
  ⟨by norm_num, (c9_display_parse_round_trip (-305) 2 Currency.Usd (by norm_num)).1,
    (c9_display_parse_round_trip (-305) 2 Currency.Usd (by norm_num)).2⟩
